import Mathlib

/-!
Shallow embedding of `src/salesforce_mcp/event_store.py`: the resumable
in-memory event log `InMemoryEventStore` with its two operations
`store_event` and `replay_events_after`.

Modelling choices:
* Python `dict` objects (`self.streams`, `self.event_index`) are modelled as
  association lists whose keys are unique (an invariant of reachable states);
  `d[k] = v` is `insertA`, `k in d` / `d[k]` / `d.get(k, default)` are
  `lookupA`, and `d.pop(k, None)` is `eraseA`.
* `collections.deque(maxlen=C)` is modelled as a plain list; the bounded
  append behaviour of `deque.append` is `dequeAppend`, and the `ValueError`
  raised by `deque(maxlen=m)` for negative `m` is an error result.
* The `str(uuid4())` call in `store_event` is modelled as an explicit
  `event_id` input supplied by the external unique-id generator (spec section six
  lists this generator as an interface consumed by the core); its practical
  global uniqueness becomes an explicit freshness hypothesis.
* Exceptions (`IndexError` from `deque[0]` on an empty deque, `ValueError`
  from a negative `maxlen`) are modelled with `Except String`.
* The `send_callback` sink of `replay_events_after` is modelled by collecting
  the `EventMessage(event.message, event.event_id)` pairs passed to it, in
  invocation order, into the `delivered` list of `ReplayResult`.
* The payload type `JSONRPCMessage` is opaque to the log and is a type
  parameter `Msg`.
-/

namespace EventStoreModel

/-- Association-list lookup, modelling Python `dict` membership and access. -/
def lookupA {β : Type} : List (String × β) → String → Option β
  | [], _ => none
  | (k, v) :: rest, key => if k = key then some v else lookupA rest key

/-- Association-list insert/update, modelling Python `d[k] = v`: the first
binding of the key is replaced in place, otherwise the binding is appended. -/
def insertA {β : Type} : List (String × β) → String → β → List (String × β)
  | [], key, v => [(key, v)]
  | (k, w) :: rest, key, v =>
      if k = key then (key, v) :: rest else (k, w) :: insertA rest key v

/-- Association-list removal of the first binding of a key, modelling Python
`d.pop(k, None)` (absent keys are a silent no-op). -/
def eraseA {β : Type} : List (String × β) → String → List (String × β)
  | [], _ => []
  | (k, w) :: rest, key => if k = key then rest else (k, w) :: eraseA rest key

/-- Data model of one stored event (`EventEntry` dataclass, event_store.py
lines eighteen to twenty-three). -/
structure EventEntry (Msg : Type) where
  event_id : String
  stream_id : String
  message : Msg
deriving DecidableEq

/-- State of `InMemoryEventStore` (event_store.py lines thirty to
thirty-four): the capacity, the per-stream deques, and the global index. -/
structure InMemoryEventStore (Msg : Type) where
  max_events_per_stream : Int
  streams : List (String × List (EventEntry Msg))
  event_index : List (String × EventEntry Msg)
deriving DecidableEq

/-- `InMemoryEventStore.__init__`: records the capacity and starts with empty
`streams` and `event_index`. No validation is performed on the capacity. -/
def InMemoryEventStore.init (Msg : Type) (max_events_per_stream : Int := 100) :
    InMemoryEventStore Msg :=
  { max_events_per_stream := max_events_per_stream, streams := [], event_index := [] }

/-- `collections.deque(maxlen=m)`: fails with `ValueError` for negative `m`,
otherwise yields an empty deque. -/
def dequeNew (Msg : Type) (maxlen : Int) : Except String (List (EventEntry Msg)) :=
  if maxlen < 0 then .error "ValueError: maxlen must be non-negative" else .ok []

/-- `deque.append` on a deque with `maxlen`: with `maxlen = 0` the element is
discarded; on a full deque the leftmost element is discarded first. -/
def dequeAppend {Msg : Type} (maxlen : Int) (buf : List (EventEntry Msg))
    (e : EventEntry Msg) : List (EventEntry Msg) :=
  if maxlen = 0 then buf
  else if (buf.length : Int) = maxlen then buf.tail ++ [e]
  else buf ++ [e]

/-- `InMemoryEventStore.store_event` (event_store.py lines thirty-six to
fifty-two). The generated `str(uuid4())` is the explicit `event_id` input.
Creates the stream deque if absent (`ValueError` if the capacity is negative);
if the deque length equals the capacity, reads the oldest entry (`IndexError`
on an empty deque) and pops its id from the index; then appends the new entry
to the deque and inserts it into the index, returning the event id. -/
def store_event {Msg : Type} (s : InMemoryEventStore Msg) (stream_id : String)
    (message : Msg) (event_id : String) :
    Except String (String × InMemoryEventStore Msg) :=
  let event_entry : EventEntry Msg :=
    { event_id := event_id, stream_id := stream_id, message := message }
  let mkStreams : Except String (List (String × List (EventEntry Msg))) :=
    match lookupA s.streams stream_id with
    | some _ => .ok s.streams
    | none =>
        match dequeNew Msg s.max_events_per_stream with
        | .error err => .error err
        | .ok fresh => .ok (insertA s.streams stream_id fresh)
  match mkStreams with
  | .error err => .error err
  | .ok streams₀ =>
    let buf := (lookupA streams₀ stream_id).getD []
    let popped : Except String (List (String × EventEntry Msg)) :=
      if (buf.length : Int) = s.max_events_per_stream then
        match buf with
        | [] => .error "IndexError: deque index out of range"
        | oldest :: _ => .ok (eraseA s.event_index oldest.event_id)
      else .ok s.event_index
    match popped with
    | .error err => .error err
    | .ok event_index₀ =>
      .ok (event_id,
        { s with
          streams :=
            insertA streams₀ stream_id
              (dequeAppend s.max_events_per_stream buf event_entry),
          event_index := insertA event_index₀ event_id event_entry })

/-- The `for event in stream_events` loop of `replay_events_after`
(event_store.py lines sixty-four to seventy-one): once `found_last` is set,
every later event is passed to the callback as
`EventMessage(event.message, event.event_id)`. -/
def replayLoop {Msg : Type} (last_event_id : String) :
    List (EventEntry Msg) → Bool → List (Msg × String)
  | [], _ => []
  | event :: rest, found_last =>
      if found_last then
        (event.message, event.event_id) :: replayLoop last_event_id rest true
      else if event.event_id = last_event_id then replayLoop last_event_id rest true
      else replayLoop last_event_id rest false

/-- Observable outcome of one `replay_events_after` call: the returned value
(`some stream_id` or `none`) and the ordered list of callback invocations. -/
structure ReplayResult (Msg : Type) where
  result : Option String
  delivered : List (Msg × String)
deriving DecidableEq

/-- `InMemoryEventStore.replay_events_after` (event_store.py lines fifty-four
to seventy-four): if `last_event_id` is not an index key, return `None` with
no callback invocation; otherwise resolve the stream via the index entry,
take `self.streams.get(stream_id, deque())`, run the replay loop and return
the stream id. The function performs no assignment to `self`, so the state is
returned unchanged in both branches. -/
def replay_events_after {Msg : Type} (s : InMemoryEventStore Msg)
    (last_event_id : String) : ReplayResult Msg × InMemoryEventStore Msg :=
  match lookupA s.event_index last_event_id with
  | none => ({ result := none, delivered := [] }, s)
  | some last_event =>
      let stream_id := last_event.stream_id
      let stream_events := (lookupA s.streams stream_id).getD []
      ({ result := some stream_id,
         delivered := replayLoop last_event_id stream_events false }, s)

/-- Folding `store_event` over a list of `(message, event_id)` calls on one
stream, stopping at the first error. -/
def storeMany {Msg : Type} :
    InMemoryEventStore Msg → String → List (Msg × String) →
    Except String (InMemoryEventStore Msg)
  | s, _, [] => .ok s
  | s, stream_id, (msg, eid) :: rest =>
      match store_event s stream_id msg eid with
      | .error err => .error err
      | .ok (_, s') => storeMany s' stream_id rest

/-- States reachable from a freshly constructed store by successful
`store_event` calls whose generated event ids are fresh (the practically
guaranteed uniqueness of `uuid4`, stated as absence from the current index). -/
inductive Reachable {Msg : Type} : InMemoryEventStore Msg → Prop
  | init (max_events_per_stream : Int) :
      Reachable (InMemoryEventStore.init Msg max_events_per_stream)
  | step {s s' : InMemoryEventStore Msg} {stream_id : String} {message : Msg}
      {event_id ret : String} :
      Reachable s →
      lookupA s.event_index event_id = none →
      store_event s stream_id message event_id = .ok (ret, s') →
      Reachable s'

section AListLemmas

variable {β : Type}

theorem lookupA_insertA_self (l : List (String × β)) (k : String) (v : β) :
    lookupA (insertA l k v) k = some v := by
  induction l with
  | nil => simp [insertA, lookupA]
  | cons p rest ih =>
      obtain ⟨k', w⟩ := p
      by_cases h : k' = k
      · subst h; simp [insertA, lookupA]
      · simp [insertA, lookupA, h, ih]

theorem lookupA_insertA_ne (l : List (String × β)) (k k' : String) (v : β)
    (h : k' ≠ k) : lookupA (insertA l k v) k' = lookupA l k' := by
  have hk : ¬ (k = k') := fun hh => h hh.symm
  induction l with
  | nil => simp [insertA, lookupA, hk]
  | cons p rest ih =>
      obtain ⟨k'', w⟩ := p
      by_cases h2 : k'' = k
      · subst h2; simp [insertA, lookupA, hk]
      · simp [insertA, lookupA, h2, ih]

theorem lookupA_eraseA_ne (l : List (String × β)) (k k' : String)
    (h : k' ≠ k) : lookupA (eraseA l k) k' = lookupA l k' := by
  have hk : ¬ (k = k') := fun hh => h hh.symm
  induction l with
  | nil => simp [eraseA]
  | cons p rest ih =>
      obtain ⟨k'', w⟩ := p
      by_cases h2 : k'' = k
      · subst h2; simp [eraseA, lookupA, hk]
      · simp [eraseA, lookupA, h2, ih]

theorem lookupA_eq_none (l : List (String × β)) (k : String) :
    lookupA l k = none ↔ k ∉ l.map Prod.fst := by
  induction l with
  | nil => simp [lookupA]
  | cons p rest ih =>
      obtain ⟨k', w⟩ := p
      by_cases h : k' = k
      · subst h; simp [lookupA]
      · simp [lookupA, h, ih, Ne.symm h]

theorem lookupA_eraseA_self (l : List (String × β)) (k : String)
    (h : (l.map Prod.fst).Nodup) : lookupA (eraseA l k) k = none := by
  induction l with
  | nil => simp [eraseA, lookupA]
  | cons p rest ih =>
      obtain ⟨k', w⟩ := p
      simp only [List.map_cons, List.nodup_cons] at h
      by_cases h2 : k' = k
      · subst h2
        simpa [eraseA, lookupA_eq_none] using h.1
      · simp [eraseA, lookupA, h2, ih h.2]

theorem mem_keys_insertA (l : List (String × β)) (k : String) (v : β)
    (k'' : String) (h : k'' ∈ (insertA l k v).map Prod.fst) :
    k'' = k ∨ k'' ∈ l.map Prod.fst := by
  induction l with
  | nil => simpa [insertA] using h
  | cons p rest ih =>
      obtain ⟨k', w⟩ := p
      by_cases h2 : k' = k
      · subst h2
        simpa [insertA] using h
      · simp only [insertA, if_neg h2, List.map_cons, List.mem_cons] at h ⊢
        rcases h with h | h
        · exact Or.inr (Or.inl h)
        · rcases ih h with h3 | h3
          · exact Or.inl h3
          · exact Or.inr (Or.inr h3)

theorem keys_insertA_nodup (l : List (String × β)) (k : String) (v : β)
    (h : (l.map Prod.fst).Nodup) : ((insertA l k v).map Prod.fst).Nodup := by
  induction l with
  | nil => simp [insertA]
  | cons p rest ih =>
      obtain ⟨k', w⟩ := p
      simp only [List.map_cons, List.nodup_cons] at h
      by_cases h2 : k' = k
      · subst h2; simpa [insertA] using h
      · have hk : k' ∉ (insertA rest k v).map Prod.fst := by
          intro hmem
          rcases mem_keys_insertA rest k v k' hmem with h3 | h3
          · exact h2 h3
          · exact h.1 h3
        simp only [insertA, if_neg h2, List.map_cons, List.nodup_cons]
        exact ⟨hk, ih h.2⟩

theorem keys_eraseA_sublist (l : List (String × β)) (k : String) :
    ((eraseA l k).map Prod.fst).Sublist (l.map Prod.fst) := by
  induction l with
  | nil => simp [eraseA]
  | cons p rest ih =>
      obtain ⟨k', w⟩ := p
      by_cases h2 : k' = k
      · simp only [eraseA, if_pos h2, List.map_cons]
        exact (List.sublist_cons_self _ _)
      · simp only [eraseA, if_neg h2, List.map_cons]
        exact ih.cons₂ k'

theorem keys_eraseA_nodup (l : List (String × β)) (k : String)
    (h : (l.map Prod.fst).Nodup) : ((eraseA l k).map Prod.fst).Nodup :=
  (keys_eraseA_sublist l k).nodup h

theorem insertA_insertA (l : List (String × β)) (k : String) (v w : β) :
    insertA (insertA l k v) k w = insertA l k w := by
  induction l with
  | nil => simp [insertA]
  | cons p rest ih =>
      obtain ⟨k', u⟩ := p
      by_cases h : k' = k
      · subst h; simp [insertA]
      · simp [insertA, h, ih]

theorem lookupA_mem (l : List (String × β)) (k : String) (v : β)
    (h : lookupA l k = some v) : (k, v) ∈ l := by
  induction l with
  | nil => simp [lookupA] at h
  | cons p rest ih =>
      obtain ⟨k', w⟩ := p
      by_cases h2 : k' = k
      · subst h2
        simp only [lookupA, if_true, eq_self_iff_true, Option.some.injEq] at h
        subst h
        exact List.mem_cons_self _ _
      · simp only [lookupA, if_neg h2] at h
        exact List.mem_cons_of_mem _ (ih h)

end AListLemmas

section StoreEventLemmas

variable {Msg : Type}

theorem dequeAppend_notfull (maxlen : Int) (buf : List (EventEntry Msg))
    (e : EventEntry Msg) (hz : maxlen ≠ 0)
    (hne : (buf.length : Int) ≠ maxlen) :
    dequeAppend maxlen buf e = buf ++ [e] := by
  simp [dequeAppend, hz, hne]

theorem dequeAppend_full (maxlen : Int) (oldest : EventEntry Msg)
    (rest : List (EventEntry Msg)) (e : EventEntry Msg)
    (hfull : (((oldest :: rest).length : Int)) = maxlen) :
    dequeAppend maxlen (oldest :: rest) e = rest ++ [e] := by
  have hfull' : (rest.length : Int) + 1 = maxlen := by
    simpa using hfull
  have hz : maxlen ≠ 0 := by omega
  simp [dequeAppend, hz, hfull']

theorem store_event_eq_new (s : InMemoryEventStore Msg) (sid : String)
    (msg : Msg) (eid : String)
    (habs : lookupA s.streams sid = none)
    (hc : 1 ≤ s.max_events_per_stream) :
    store_event s sid msg eid = .ok (eid,
      { s with
        streams := insertA s.streams sid [⟨eid, sid, msg⟩],
        event_index := insertA s.event_index eid ⟨eid, sid, msg⟩ }) := by
  have hneg : ¬ s.max_events_per_stream < 0 := by omega
  have hz : ¬ ((0 : Int) = s.max_events_per_stream) := by omega
  have hz0 : s.max_events_per_stream ≠ 0 := by omega
  simp [store_event, habs, dequeNew, hneg, lookupA_insertA_self, hz,
    dequeAppend, hz0, insertA_insertA]

theorem store_event_eq_notfull (s : InMemoryEventStore Msg) (sid : String)
    (msg : Msg) (eid : String) (buf : List (EventEntry Msg))
    (hbuf : lookupA s.streams sid = some buf)
    (hne : (buf.length : Int) ≠ s.max_events_per_stream)
    (hc : 1 ≤ s.max_events_per_stream) :
    store_event s sid msg eid = .ok (eid,
      { s with
        streams := insertA s.streams sid (buf ++ [⟨eid, sid, msg⟩]),
        event_index := insertA s.event_index eid ⟨eid, sid, msg⟩ }) := by
  have hz0 : s.max_events_per_stream ≠ 0 := by omega
  simp [store_event, hbuf, hne, dequeAppend, hz0]

theorem store_event_eq_full (s : InMemoryEventStore Msg) (sid : String)
    (msg : Msg) (eid : String) (oldest : EventEntry Msg)
    (rest : List (EventEntry Msg))
    (hbuf : lookupA s.streams sid = some (oldest :: rest))
    (hfull : ((oldest :: rest).length : Int) = s.max_events_per_stream) :
    store_event s sid msg eid = .ok (eid,
      { s with
        streams := insertA s.streams sid (rest ++ [⟨eid, sid, msg⟩]),
        event_index :=
          insertA (eraseA s.event_index oldest.event_id) eid ⟨eid, sid, msg⟩ }) := by
  have hfull' : (rest.length : Int) + 1 = s.max_events_per_stream := by
    simpa using hfull
  have hz : s.max_events_per_stream ≠ 0 := by omega
  simp [store_event, hbuf, hfull', dequeAppend, hz]

theorem store_event_error_neg (s : InMemoryEventStore Msg) (sid : String)
    (msg : Msg) (eid : String)
    (habs : lookupA s.streams sid = none)
    (hneg : s.max_events_per_stream < 0) :
    store_event s sid msg eid = .error "ValueError: maxlen must be non-negative" := by
  simp [store_event, habs, dequeNew, hneg]

theorem store_event_error_zero (s : InMemoryEventStore Msg) (sid : String)
    (msg : Msg) (eid : String)
    (habs : lookupA s.streams sid = none)
    (hz : s.max_events_per_stream = 0) :
    store_event s sid msg eid = .error "IndexError: deque index out of range" := by
  have hneg : ¬ s.max_events_per_stream < 0 := by omega
  simp [store_event, habs, dequeNew, hneg, lookupA_insertA_self, hz]

theorem store_event_ok_inv {s s' : InMemoryEventStore Msg}
    {sid : String} {msg : Msg} {eid ret : String}
    (hok : store_event s sid msg eid = .ok (ret, s')) :
    ret = eid ∧
    ((lookupA s.streams sid = none ∧ 1 ≤ s.max_events_per_stream ∧
      s' = { s with
        streams := insertA s.streams sid [⟨eid, sid, msg⟩],
        event_index := insertA s.event_index eid ⟨eid, sid, msg⟩ }) ∨
     (∃ buf, lookupA s.streams sid = some buf ∧
      (buf.length : Int) ≠ s.max_events_per_stream ∧
      s' = { s with
        streams :=
          insertA s.streams sid (dequeAppend s.max_events_per_stream buf ⟨eid, sid, msg⟩),
        event_index := insertA s.event_index eid ⟨eid, sid, msg⟩ }) ∨
     (∃ oldest rest, lookupA s.streams sid = some (oldest :: rest) ∧
      ((oldest :: rest).length : Int) = s.max_events_per_stream ∧
      s' = { s with
        streams := insertA s.streams sid (rest ++ [⟨eid, sid, msg⟩]),
        event_index :=
          insertA (eraseA s.event_index oldest.event_id) eid ⟨eid, sid, msg⟩ })) := by
  cases hlk : lookupA s.streams sid with
  | none =>
      by_cases hneg : s.max_events_per_stream < 0
      · rw [store_event_error_neg s sid msg eid hlk hneg] at hok
        exact absurd hok (by simp)
      · by_cases hz : s.max_events_per_stream = 0
        · rw [store_event_error_zero s sid msg eid hlk hz] at hok
          exact absurd hok (by simp)
        · have hc : 1 ≤ s.max_events_per_stream := by omega
          rw [store_event_eq_new s sid msg eid hlk hc] at hok
          obtain ⟨h1, h2⟩ := Prod.mk.injEq .. ▸ (Except.ok.injEq .. ▸ hok)
          exact ⟨h1.symm, Or.inl ⟨rfl, hc, h2.symm⟩⟩
  | some buf =>
      by_cases hfull : (buf.length : Int) = s.max_events_per_stream
      · cases buf with
        | nil =>
            have hz : s.max_events_per_stream = 0 := by
              simpa using hfull.symm
            simp [store_event, hlk, ← hfull] at hok
        | cons oldest rest =>
            rw [store_event_eq_full s sid msg eid oldest rest hlk hfull] at hok
            obtain ⟨h1, h2⟩ := Prod.mk.injEq .. ▸ (Except.ok.injEq .. ▸ hok)
            exact ⟨h1.symm, Or.inr (Or.inr ⟨oldest, rest, rfl, hfull, h2.symm⟩)⟩
      · have hok2 : store_event s sid msg eid = .ok (eid,
          { s with
            streams :=
              insertA s.streams sid (dequeAppend s.max_events_per_stream buf ⟨eid, sid, msg⟩),
            event_index := insertA s.event_index eid ⟨eid, sid, msg⟩ }) := by
          simp [store_event, hlk, hfull]
        rw [hok2] at hok
        obtain ⟨h1, h2⟩ := Prod.mk.injEq .. ▸ (Except.ok.injEq .. ▸ hok)
        exact ⟨h1.symm, Or.inr (Or.inl ⟨buf, rfl, hfull, h2.symm⟩)⟩

end StoreEventLemmas

section Invariant

variable {Msg : Type}

/-- The well-formedness invariant of reachable log states: unique dict keys,
buffers bounded by the capacity, buffered entries tagged with their stream,
per-buffer unique event ids, and the exact buffer/index correspondence (an
index entry is a buffered entry of its stream, and every buffered entry is
indexed under its id). -/
structure Inv (s : InMemoryEventStore Msg) : Prop where
  streams_keys_nodup : (s.streams.map Prod.fst).Nodup
  index_keys_nodup : (s.event_index.map Prod.fst).Nodup
  buf_len : ∀ sid buf, lookupA s.streams sid = some buf →
    (buf.length : Int) ≤ s.max_events_per_stream
  buf_stream : ∀ sid buf, lookupA s.streams sid = some buf →
    ∀ e ∈ buf, e.stream_id = sid
  buf_ids_nodup : ∀ sid buf, lookupA s.streams sid = some buf →
    (buf.map EventEntry.event_id).Nodup
  index_key : ∀ eid e, lookupA s.event_index eid = some e → e.event_id = eid
  index_mem : ∀ eid e, lookupA s.event_index eid = some e →
    ∃ buf, lookupA s.streams e.stream_id = some buf ∧ e ∈ buf
  mem_index : ∀ sid buf, lookupA s.streams sid = some buf →
    ∀ e ∈ buf, lookupA s.event_index e.event_id = some e
  buf_ne : ∀ sid buf, lookupA s.streams sid = some buf → buf ≠ []

theorem Inv_init (c : Int) : Inv (InMemoryEventStore.init Msg c) := by
  refine ⟨?_, ?_, ?_, ?_, ?_, ?_, ?_, ?_, ?_⟩ <;>
    simp [InMemoryEventStore.init, lookupA]

theorem Inv_step {s s' : InMemoryEventStore Msg} {sid : String}
    {msg : Msg} {eid ret : String}
    (hInv : Inv s)
    (hfresh : lookupA s.event_index eid = none)
    (hok : store_event s sid msg eid = .ok (ret, s')) : Inv s' := by
  have hfresh_buf : ∀ sid0 buf0, lookupA s.streams sid0 = some buf0 →
      ∀ e ∈ buf0, e.event_id ≠ eid := by
    intro sid0 buf0 hb e he heq
    have := hInv.mem_index sid0 buf0 hb e he
    rw [heq, hfresh] at this
    exact Option.noConfusion this
  have hcross : ∀ sid1 buf1 sid2 buf2, lookupA s.streams sid1 = some buf1 →
      lookupA s.streams sid2 = some buf2 →
      ∀ e1 ∈ buf1, ∀ e2 ∈ buf2, e1.event_id = e2.event_id →
      sid1 = sid2 ∧ e1 = e2 := by
    intro sid1 buf1 sid2 buf2 hb1 hb2 e1 he1 e2 he2 hid
    have h1 := hInv.mem_index sid1 buf1 hb1 e1 he1
    have h2 := hInv.mem_index sid2 buf2 hb2 e2 he2
    rw [hid, h2] at h1
    obtain rfl : e1 = e2 := (Option.some.injEq _ _ ▸ h1).symm
    exact ⟨(hInv.buf_stream sid1 buf1 hb1 e1 he1).symm.trans
      (hInv.buf_stream sid2 buf2 hb2 e1 he2), rfl⟩
  obtain ⟨rfl, hcase⟩ := store_event_ok_inv hok
  rcases hcase with ⟨habs, hc, rfl⟩ | ⟨buf, hbuf, hne, rfl⟩ |
    ⟨oldest, rest, hbuf, hfull, rfl⟩
  · -- new stream: fresh singleton buffer
    constructor
    · exact keys_insertA_nodup _ _ _ hInv.streams_keys_nodup
    · exact keys_insertA_nodup _ _ _ hInv.index_keys_nodup
    · intro sid0 buf0 hb
      by_cases hs : sid0 = sid
      · subst hs
        rw [lookupA_insertA_self] at hb
        obtain rfl : buf0 = [⟨ret, sid0, msg⟩] := (Option.some.injEq _ _ ▸ hb).symm
        simpa using hc
      · rw [lookupA_insertA_ne _ _ _ _ hs] at hb
        exact hInv.buf_len sid0 buf0 hb
    · intro sid0 buf0 hb e he
      by_cases hs : sid0 = sid
      · subst hs
        rw [lookupA_insertA_self] at hb
        obtain rfl : buf0 = [⟨ret, sid0, msg⟩] := (Option.some.injEq _ _ ▸ hb).symm
        simp only [List.mem_singleton] at he
        subst he; rfl
      · rw [lookupA_insertA_ne _ _ _ _ hs] at hb
        exact hInv.buf_stream sid0 buf0 hb e he
    · intro sid0 buf0 hb
      by_cases hs : sid0 = sid
      · subst hs
        rw [lookupA_insertA_self] at hb
        obtain rfl : buf0 = [⟨ret, sid0, msg⟩] := (Option.some.injEq _ _ ▸ hb).symm
        simp
      · rw [lookupA_insertA_ne _ _ _ _ hs] at hb
        exact hInv.buf_ids_nodup sid0 buf0 hb
    · intro eid0 e he
      by_cases hs : eid0 = ret
      · subst hs
        rw [lookupA_insertA_self] at he
        obtain rfl : e = ⟨eid0, sid, msg⟩ := (Option.some.injEq _ _ ▸ he).symm
        rfl
      · rw [lookupA_insertA_ne _ _ _ _ hs] at he
        exact hInv.index_key eid0 e he
    · intro eid0 e he
      by_cases hs : eid0 = ret
      · subst hs
        rw [lookupA_insertA_self] at he
        obtain rfl : e = ⟨eid0, sid, msg⟩ := (Option.some.injEq _ _ ▸ he).symm
        exact ⟨[⟨eid0, sid, msg⟩], by rw [lookupA_insertA_self], by simp⟩
      · rw [lookupA_insertA_ne _ _ _ _ hs] at he
        obtain ⟨buf0, hb0, hmem0⟩ := hInv.index_mem eid0 e he
        have hsne : e.stream_id ≠ sid := by
          intro hh
          rw [hh, habs] at hb0
          exact Option.noConfusion hb0
        exact ⟨buf0, by rw [lookupA_insertA_ne _ _ _ _ hsne]; exact hb0, hmem0⟩
    · intro sid0 buf0 hb e he
      by_cases hs : sid0 = sid
      · subst hs
        rw [lookupA_insertA_self] at hb
        obtain rfl : buf0 = [⟨ret, sid0, msg⟩] := (Option.some.injEq _ _ ▸ hb).symm
        simp only [List.mem_singleton] at he
        subst he
        rw [lookupA_insertA_self]
      · rw [lookupA_insertA_ne _ _ _ _ hs] at hb
        have hne : e.event_id ≠ ret := hfresh_buf sid0 buf0 hb e he
        rw [lookupA_insertA_ne _ _ _ _ hne]
        exact hInv.mem_index sid0 buf0 hb e he
    · intro sid0 buf0 hb
      by_cases hs : sid0 = sid
      · subst hs
        rw [lookupA_insertA_self] at hb
        obtain rfl : buf0 = [⟨ret, sid0, msg⟩] := (Option.some.injEq _ _ ▸ hb).symm
        simp
      · rw [lookupA_insertA_ne _ _ _ _ hs] at hb
        exact hInv.buf_ne sid0 buf0 hb
  · -- existing stream, not full: plain append
    have hc : 1 ≤ s.max_events_per_stream := by
      have := hInv.buf_len sid buf hbuf
      omega
    rw [dequeAppend_notfull _ _ _ (by omega) hne]
    constructor
    · exact keys_insertA_nodup _ _ _ hInv.streams_keys_nodup
    · exact keys_insertA_nodup _ _ _ hInv.index_keys_nodup
    · intro sid0 buf0 hb
      by_cases hs : sid0 = sid
      · subst hs
        rw [lookupA_insertA_self] at hb
        obtain rfl : buf0 = buf ++ [⟨ret, sid0, msg⟩] := (Option.some.injEq _ _ ▸ hb).symm
        have := hInv.buf_len sid0 buf hbuf
        simp only [List.length_append, List.length_singleton]
        push_cast
        omega
      · rw [lookupA_insertA_ne _ _ _ _ hs] at hb
        exact hInv.buf_len sid0 buf0 hb
    · intro sid0 buf0 hb e he
      by_cases hs : sid0 = sid
      · subst hs
        rw [lookupA_insertA_self] at hb
        obtain rfl : buf0 = buf ++ [⟨ret, sid0, msg⟩] := (Option.some.injEq _ _ ▸ hb).symm
        rcases List.mem_append.mp he with he | he
        · exact hInv.buf_stream sid0 buf hbuf e he
        · simp only [List.mem_singleton] at he
          subst he; rfl
      · rw [lookupA_insertA_ne _ _ _ _ hs] at hb
        exact hInv.buf_stream sid0 buf0 hb e he
    · intro sid0 buf0 hb
      by_cases hs : sid0 = sid
      · subst hs
        rw [lookupA_insertA_self] at hb
        obtain rfl : buf0 = buf ++ [⟨ret, sid0, msg⟩] := (Option.some.injEq _ _ ▸ hb).symm
        simp only [List.map_append, List.map_singleton]
        refine (hInv.buf_ids_nodup sid0 buf hbuf).append (by simp) ?_
        intro a ha hb2
        simp only [List.mem_singleton] at hb2
        subst hb2
        rcases List.mem_map.mp ha with ⟨e, he, heq⟩
        exact hfresh_buf sid0 buf hbuf e he heq
      · rw [lookupA_insertA_ne _ _ _ _ hs] at hb
        exact hInv.buf_ids_nodup sid0 buf0 hb
    · intro eid0 e he
      by_cases hs : eid0 = ret
      · subst hs
        rw [lookupA_insertA_self] at he
        obtain rfl : e = ⟨eid0, sid, msg⟩ := (Option.some.injEq _ _ ▸ he).symm
        rfl
      · rw [lookupA_insertA_ne _ _ _ _ hs] at he
        exact hInv.index_key eid0 e he
    · intro eid0 e he
      by_cases hs : eid0 = ret
      · subst hs
        rw [lookupA_insertA_self] at he
        obtain rfl : e = ⟨eid0, sid, msg⟩ := (Option.some.injEq _ _ ▸ he).symm
        exact ⟨buf ++ [⟨eid0, sid, msg⟩], by rw [lookupA_insertA_self], by simp⟩
      · rw [lookupA_insertA_ne _ _ _ _ hs] at he
        obtain ⟨buf0, hb0, hmem0⟩ := hInv.index_mem eid0 e he
        by_cases hsid : e.stream_id = sid
        · rw [hsid, hbuf] at hb0
          obtain rfl : buf0 = buf := (Option.some.injEq _ _ ▸ hb0).symm
          refine ⟨buf0 ++ [⟨ret, sid, msg⟩], ?_, by simp [hmem0]⟩
          rw [hsid, lookupA_insertA_self]
        · exact ⟨buf0, by rw [lookupA_insertA_ne _ _ _ _ hsid]; exact hb0, hmem0⟩
    · intro sid0 buf0 hb e he
      by_cases hs : sid0 = sid
      · subst hs
        rw [lookupA_insertA_self] at hb
        obtain rfl : buf0 = buf ++ [⟨ret, sid0, msg⟩] := (Option.some.injEq _ _ ▸ hb).symm
        rcases List.mem_append.mp he with he | he
        · have hne2 : e.event_id ≠ ret := hfresh_buf sid0 buf hbuf e he
          rw [lookupA_insertA_ne _ _ _ _ hne2]
          exact hInv.mem_index sid0 buf hbuf e he
        · simp only [List.mem_singleton] at he
          subst he
          rw [lookupA_insertA_self]
      · rw [lookupA_insertA_ne _ _ _ _ hs] at hb
        have hne2 : e.event_id ≠ ret := hfresh_buf sid0 buf0 hb e he
        rw [lookupA_insertA_ne _ _ _ _ hne2]
        exact hInv.mem_index sid0 buf0 hb e he
    · intro sid0 buf0 hb
      by_cases hs : sid0 = sid
      · subst hs
        rw [lookupA_insertA_self] at hb
        obtain rfl : buf0 = buf ++ [⟨ret, sid0, msg⟩] := (Option.some.injEq _ _ ▸ hb).symm
        simp
      · rw [lookupA_insertA_ne _ _ _ _ hs] at hb
        exact hInv.buf_ne sid0 buf0 hb
  · -- existing stream, full: evict the oldest, then append
    have hids := hInv.buf_ids_nodup sid _ hbuf
    have holdest_mem : oldest ∈ oldest :: rest := List.mem_cons_self _ _
    have holdest_idx : lookupA s.event_index oldest.event_id = some oldest :=
      hInv.mem_index sid _ hbuf oldest holdest_mem
    have holdest_rest : oldest.event_id ∉ rest.map EventEntry.event_id := by
      simp only [List.map_cons, List.nodup_cons] at hids
      exact hids.1
    constructor
    · exact keys_insertA_nodup _ _ _ hInv.streams_keys_nodup
    · exact keys_insertA_nodup _ _ _ (keys_eraseA_nodup _ _ hInv.index_keys_nodup)
    · intro sid0 buf0 hb
      by_cases hs : sid0 = sid
      · subst hs
        rw [lookupA_insertA_self] at hb
        obtain rfl : buf0 = rest ++ [⟨ret, sid0, msg⟩] := (Option.some.injEq _ _ ▸ hb).symm
        simp only [List.length_cons] at hfull
        simp only [List.length_append, List.length_singleton]
        push_cast
        push_cast at hfull
        omega
      · rw [lookupA_insertA_ne _ _ _ _ hs] at hb
        exact hInv.buf_len sid0 buf0 hb
    · intro sid0 buf0 hb e he
      by_cases hs : sid0 = sid
      · subst hs
        rw [lookupA_insertA_self] at hb
        obtain rfl : buf0 = rest ++ [⟨ret, sid0, msg⟩] := (Option.some.injEq _ _ ▸ hb).symm
        rcases List.mem_append.mp he with he | he
        · exact hInv.buf_stream sid0 _ hbuf e (List.mem_cons_of_mem _ he)
        · simp only [List.mem_singleton] at he
          subst he; rfl
      · rw [lookupA_insertA_ne _ _ _ _ hs] at hb
        exact hInv.buf_stream sid0 buf0 hb e he
    · intro sid0 buf0 hb
      by_cases hs : sid0 = sid
      · subst hs
        rw [lookupA_insertA_self] at hb
        obtain rfl : buf0 = rest ++ [⟨ret, sid0, msg⟩] := (Option.some.injEq _ _ ▸ hb).symm
        simp only [List.map_append, List.map_singleton]
        simp only [List.map_cons, List.nodup_cons] at hids
        refine hids.2.append (by simp) ?_
        intro a ha hb2
        simp only [List.mem_singleton] at hb2
        subst hb2
        rcases List.mem_map.mp ha with ⟨e, he, heq⟩
        exact hfresh_buf sid0 _ hbuf e (List.mem_cons_of_mem _ he) heq
      · rw [lookupA_insertA_ne _ _ _ _ hs] at hb
        exact hInv.buf_ids_nodup sid0 buf0 hb
    · intro eid0 e he
      by_cases hs : eid0 = ret
      · subst hs
        rw [lookupA_insertA_self] at he
        obtain rfl : e = ⟨eid0, sid, msg⟩ := (Option.some.injEq _ _ ▸ he).symm
        rfl
      · rw [lookupA_insertA_ne _ _ _ _ hs] at he
        by_cases ho : eid0 = oldest.event_id
        · subst ho
          rw [lookupA_eraseA_self _ _ hInv.index_keys_nodup] at he
          exact Option.noConfusion he
        · rw [lookupA_eraseA_ne _ _ _ ho] at he
          exact hInv.index_key eid0 e he
    · intro eid0 e he
      by_cases hs : eid0 = ret
      · subst hs
        rw [lookupA_insertA_self] at he
        obtain rfl : e = ⟨eid0, sid, msg⟩ := (Option.some.injEq _ _ ▸ he).symm
        exact ⟨rest ++ [⟨eid0, sid, msg⟩], by rw [lookupA_insertA_self], by simp⟩
      · rw [lookupA_insertA_ne _ _ _ _ hs] at he
        by_cases ho : eid0 = oldest.event_id
        · subst ho
          rw [lookupA_eraseA_self _ _ hInv.index_keys_nodup] at he
          exact Option.noConfusion he
        · rw [lookupA_eraseA_ne _ _ _ ho] at he
          obtain ⟨buf0, hb0, hmem0⟩ := hInv.index_mem eid0 e he
          by_cases hsid : e.stream_id = sid
          · rw [hsid, hbuf] at hb0
            obtain rfl : buf0 = oldest :: rest := (Option.some.injEq _ _ ▸ hb0).symm
            have hkey := hInv.index_key eid0 e he
            have heo : e ≠ oldest := by
              intro hh
              rw [hh] at hkey
              exact ho hkey.symm
            have hmem1 : e ∈ rest := by
              rcases List.mem_cons.mp hmem0 with hh | hh
              · exact absurd hh heo
              · exact hh
            refine ⟨rest ++ [⟨ret, sid, msg⟩], ?_, by simp [hmem1]⟩
            rw [hsid, lookupA_insertA_self]
          · exact ⟨buf0, by rw [lookupA_insertA_ne _ _ _ _ hsid]; exact hb0, hmem0⟩
    · intro sid0 buf0 hb e he
      by_cases hs : sid0 = sid
      · subst hs
        rw [lookupA_insertA_self] at hb
        obtain rfl : buf0 = rest ++ [⟨ret, sid0, msg⟩] := (Option.some.injEq _ _ ▸ hb).symm
        rcases List.mem_append.mp he with he | he
        · have hne2 : e.event_id ≠ ret :=
            hfresh_buf sid0 _ hbuf e (List.mem_cons_of_mem _ he)
          rw [lookupA_insertA_ne _ _ _ _ hne2]
          have hno : e.event_id ≠ oldest.event_id := by
            intro hh
            exact holdest_rest (hh ▸ List.mem_map_of_mem EventEntry.event_id he)
          rw [lookupA_eraseA_ne _ _ _ hno]
          exact hInv.mem_index sid0 _ hbuf e (List.mem_cons_of_mem _ he)
        · simp only [List.mem_singleton] at he
          subst he
          rw [lookupA_insertA_self]
      · rw [lookupA_insertA_ne _ _ _ _ hs] at hb
        have hne2 : e.event_id ≠ ret := hfresh_buf sid0 buf0 hb e he
        rw [lookupA_insertA_ne _ _ _ _ hne2]
        have hno : e.event_id ≠ oldest.event_id := by
          intro hh
          obtain ⟨hsid_eq, _⟩ := hcross sid0 buf0 sid (oldest :: rest) hb hbuf
            e he oldest holdest_mem hh
          exact hs hsid_eq
        rw [lookupA_eraseA_ne _ _ _ hno]
        exact hInv.mem_index sid0 buf0 hb e he
    · intro sid0 buf0 hb
      by_cases hs : sid0 = sid
      · subst hs
        rw [lookupA_insertA_self] at hb
        obtain rfl : buf0 = rest ++ [⟨ret, sid0, msg⟩] := (Option.some.injEq _ _ ▸ hb).symm
        simp
      · rw [lookupA_insertA_ne _ _ _ _ hs] at hb
        exact hInv.buf_ne sid0 buf0 hb

theorem store_event_max {s s' : InMemoryEventStore Msg} {sid : String}
    {msg : Msg} {eid ret : String}
    (hok : store_event s sid msg eid = .ok (ret, s')) :
    s'.max_events_per_stream = s.max_events_per_stream := by
  obtain ⟨-, hcase⟩ := store_event_ok_inv hok
  rcases hcase with ⟨-, -, rfl⟩ | ⟨buf, -, -, rfl⟩ | ⟨oldest, rest, -, -, rfl⟩ <;> rfl

theorem reachable_inv {s : InMemoryEventStore Msg} (h : Reachable s) : Inv s := by
  induction h with
  | init c => exact Inv_init c
  | step hr hfresh hok ih => exact Inv_step ih hfresh hok

end Invariant

section ReplayLemmas

variable {Msg : Type}

theorem replayLoop_found (lastId : String) (l : List (EventEntry Msg)) :
    replayLoop lastId l true = l.map (fun e => (e.message, e.event_id)) := by
  induction l with
  | nil => simp [replayLoop]
  | cons e rest ih => simp [replayLoop, ih]

theorem replayLoop_split (lastId : String) (pre post : List (EventEntry Msg))
    (a : EventEntry Msg) (ha : a.event_id = lastId)
    (hpre : lastId ∉ pre.map EventEntry.event_id) :
    replayLoop lastId (pre ++ a :: post) false
      = post.map (fun e => (e.message, e.event_id)) := by
  induction pre with
  | nil => simp [replayLoop, ha, replayLoop_found]
  | cons e rest ih =>
      simp only [List.map_cons, List.mem_cons, not_or] at hpre
      have hne : ¬ (e.event_id = lastId) := fun hh => hpre.1 hh.symm
      simpa [replayLoop, hne] using ih hpre.2

theorem anchor_split (buf : List (EventEntry Msg)) (e : EventEntry Msg)
    (hmem : e ∈ buf) (hnodup : (buf.map EventEntry.event_id).Nodup) :
    ∃ pre post, buf = pre ++ e :: post ∧
      e.event_id ∉ pre.map EventEntry.event_id ∧
      e.event_id ∉ post.map EventEntry.event_id := by
  obtain ⟨pre, post, rfl⟩ := List.append_of_mem hmem
  refine ⟨pre, post, rfl, ?_, ?_⟩
  · intro hpre
    rw [List.map_append, List.nodup_append] at hnodup
    exact hnodup.2.2 hpre (by simp)
  · intro hpost
    rw [List.map_append, List.map_cons, List.nodup_append] at hnodup
    exact (List.nodup_cons.mp hnodup.2.1).1 hpost

/-- Success branch of `replay_events_after`, characterized against a
well-formed state: the anchor entry sits at a unique position in its stream's
buffer, exactly the entries strictly after it are delivered, in order. -/
theorem replay_found_spec {s : InMemoryEventStore Msg} (hInv : Inv s)
    {lastId : String} {e : EventEntry Msg}
    (he : lookupA s.event_index lastId = some e) :
    ∃ buf pre post,
      lookupA s.streams e.stream_id = some buf ∧
      buf = pre ++ e :: post ∧
      e.event_id = lastId ∧
      (replay_events_after s lastId).1 =
        { result := some e.stream_id,
          delivered := post.map (fun ev => (ev.message, ev.event_id)) } ∧
      (∀ ev ∈ post, ev.stream_id = e.stream_id ∧ ev.event_id ≠ lastId) := by
  obtain ⟨buf, hbuf, hmem⟩ := hInv.index_mem lastId e he
  have hkey : e.event_id = lastId := hInv.index_key lastId e he
  obtain ⟨pre, post, rfl, hpre, hpost⟩ :=
    anchor_split buf e hmem (hInv.buf_ids_nodup _ _ hbuf)
  refine ⟨pre ++ e :: post, pre, post, hbuf, rfl, hkey, ?_, ?_⟩
  · simp only [replay_events_after, he, hbuf, Option.getD_some]
    rw [replayLoop_split lastId pre post e hkey (hkey ▸ hpre)]
  · intro ev hev
    refine ⟨?_, ?_⟩
    · rw [hInv.buf_stream _ _ hbuf ev (by simp [hev])]
    · intro hh
      exact hpost (hkey ▸ hh ▸ List.mem_map_of_mem EventEntry.event_id hev)

theorem replay_not_found (s : InMemoryEventStore Msg) (lastId : String)
    (habs : lookupA s.event_index lastId = none) :
    (replay_events_after s lastId).1 = { result := none, delivered := [] } := by
  simp [replay_events_after, habs]

end ReplayLemmas

section LastN

variable {α : Type}

/-- The last `c` elements of a list: the contents a `deque(maxlen=c)` retains
after the elements of the list have been appended in order. -/
def lastN (c : Nat) (l : List α) : List α := l.drop (l.length - c)

theorem lastN_of_le (c : Nat) (l : List α) (h : l.length ≤ c) : lastN c l = l := by
  simp [lastN, Nat.sub_eq_zero_of_le h]

theorem lastN_append_right (c : Nat) (x y : List α) (h : c ≤ y.length) :
    lastN c (x ++ y) = lastN c y := by
  unfold lastN
  have harith : (x ++ y).length - c = x.length + (y.length - c) := by
    simp only [List.length_append]
    omega
  rw [harith, List.drop_append]

theorem lastN_merge (c : Nat) (l r : List α) :
    lastN c (lastN c l ++ r) = lastN c (l ++ r) := by
  by_cases h : l.length ≤ c
  · rw [lastN_of_le c l h]
  · have h2 : c ≤ (lastN c l).length := by
      simp only [lastN, List.length_drop]
      omega
    have hy : c ≤ (lastN c l ++ r).length :=
      le_trans h2 (by simp only [List.length_append]; omega)
    have hsplit : l ++ r = l.take (l.length - c) ++ (lastN c l ++ r) := by
      rw [← List.append_assoc]
      unfold lastN
      rw [List.take_append_drop]
    calc lastN c (lastN c l ++ r)
        = lastN c (l.take (l.length - c) ++ (lastN c l ++ r)) :=
          (lastN_append_right c _ _ hy).symm
      _ = lastN c (l ++ r) := by rw [← hsplit]

end LastN

section StoreManyLemmas

variable {Msg : Type}

theorem lookupA_eraseA_none {β : Type} (l : List (String × β)) (k k' : String)
    (h : lookupA l k' = none) : lookupA (eraseA l k) k' = none := by
  rw [lookupA_eq_none] at h ⊢
  intro hmem
  exact h ((keys_eraseA_sublist l k).mem hmem)

theorem store_event_succeeds (s : InMemoryEventStore Msg)
    (hc : 1 ≤ s.max_events_per_stream) (sid : String) (msg : Msg) (eid : String) :
    ∃ s', store_event s sid msg eid = .ok (eid, s') := by
  cases hlk : lookupA s.streams sid with
  | none => exact ⟨_, store_event_eq_new s sid msg eid hlk hc⟩
  | some buf =>
      by_cases hfull : (buf.length : Int) = s.max_events_per_stream
      · cases buf with
        | nil => simp at hfull; omega
        | cons oldest rest =>
            exact ⟨_, store_event_eq_full s sid msg eid oldest rest hlk hfull⟩
      · exact ⟨_, store_event_eq_notfull s sid msg eid buf hlk hfull hc⟩

theorem store_event_buffer {s s' : InMemoryEventStore Msg} {sid : String}
    {msg : Msg} {eid ret : String}
    (hInv : Inv s) (hc : 1 ≤ s.max_events_per_stream)
    (hok : store_event s sid msg eid = .ok (ret, s')) :
    lookupA s'.streams sid =
      some (lastN s.max_events_per_stream.toNat
        (((lookupA s.streams sid).getD []) ++ [⟨eid, sid, msg⟩])) ∧
    (∀ sid0, sid0 ≠ sid → lookupA s'.streams sid0 = lookupA s.streams sid0) := by
  obtain ⟨rfl, hcase⟩ := store_event_ok_inv hok
  rcases hcase with ⟨habs, hc2, rfl⟩ | ⟨buf, hbuf, hne, rfl⟩ |
    ⟨oldest, rest, hbuf, hfull, rfl⟩
  · constructor
    · rw [lookupA_insertA_self, habs]
      simp only [Option.getD_none, List.nil_append]
      rw [lastN_of_le _ _ (by simp only [List.length_singleton]; omega)]
    · intro sid0 hs
      exact lookupA_insertA_ne _ _ _ _ hs
  · have hlen := hInv.buf_len sid buf hbuf
    constructor
    · rw [lookupA_insertA_self, hbuf]
      simp only [Option.getD_some]
      rw [dequeAppend_notfull _ _ _ (by omega) hne]
      rw [lastN_of_le _ _
        (by simp only [List.length_append, List.length_singleton]; omega)]
    · intro sid0 hs
      exact lookupA_insertA_ne _ _ _ _ hs
  · constructor
    · rw [lookupA_insertA_self, hbuf]
      simp only [Option.getD_some]
      have hlen : (oldest :: rest).length = s.max_events_per_stream.toNat := by
        simp only [List.length_cons] at hfull ⊢
        omega
      have : lastN s.max_events_per_stream.toNat
          ((oldest :: rest) ++ [(⟨ret, sid, msg⟩ : EventEntry Msg)])
          = rest ++ [⟨ret, sid, msg⟩] := by
        unfold lastN
        have harith : ((oldest :: rest) ++ [(⟨ret, sid, msg⟩ : EventEntry Msg)]).length -
            s.max_events_per_stream.toNat = 1 := by
          simp only [List.length_append, List.length_cons, List.length_nil] at hlen ⊢
          omega
        rw [harith]
        simp
      rw [this]
    · intro sid0 hs
      exact lookupA_insertA_ne _ _ _ _ hs

theorem store_event_index_none {s s' : InMemoryEventStore Msg} {sid : String}
    {msg : Msg} {eid ret : String}
    (hok : store_event s sid msg eid = .ok (ret, s'))
    (id0 : String) (hnone : lookupA s.event_index id0 = none) (hne : id0 ≠ eid) :
    lookupA s'.event_index id0 = none := by
  obtain ⟨rfl, hcase⟩ := store_event_ok_inv hok
  rcases hcase with ⟨-, -, rfl⟩ | ⟨buf, -, -, rfl⟩ | ⟨oldest, rest, -, -, rfl⟩
  · rw [lookupA_insertA_ne _ _ _ _ hne]
    exact hnone
  · rw [lookupA_insertA_ne _ _ _ _ hne]
    exact hnone
  · rw [lookupA_insertA_ne _ _ _ _ hne]
    exact lookupA_eraseA_none _ _ _ hnone

theorem storeMany_from_buf (sid : String) :
    ∀ (calls : List (Msg × String)) (s : InMemoryEventStore Msg)
    (buf : List (EventEntry Msg)),
    Reachable s → 1 ≤ s.max_events_per_stream →
    lookupA s.streams sid = some buf →
    (∀ c ∈ calls, lookupA s.event_index c.2 = none) →
    (calls.map Prod.snd).Nodup →
    ∃ s', storeMany s sid calls = .ok s' ∧ Reachable s' ∧
      s'.max_events_per_stream = s.max_events_per_stream ∧
      lookupA s'.streams sid =
        some (lastN s.max_events_per_stream.toNat
          (buf ++ calls.map (fun c => ⟨c.2, sid, c.1⟩))) ∧
      (∀ sid0, sid0 ≠ sid → lookupA s'.streams sid0 = lookupA s.streams sid0) := by
  intro calls
  induction calls with
  | nil =>
      intro s buf hr hc hbuf hfresh hnodup
      refine ⟨s, rfl, hr, rfl, ?_, fun _ _ => rfl⟩
      rw [hbuf, List.map_nil, List.append_nil]
      have := (reachable_inv hr).buf_len sid buf hbuf
      rw [lastN_of_le _ _ (by omega)]
  | cons c rest ih =>
      intro s buf hr hc hbuf hfresh hnodup
      obtain ⟨msg0, eid0⟩ := c
      have hfresh0 : lookupA s.event_index eid0 = none :=
        hfresh _ (List.mem_cons_self _ _)
      obtain ⟨s1, hok⟩ := store_event_succeeds s hc sid msg0 eid0
      have hr1 : Reachable s1 := Reachable.step hr hfresh0 hok
      have hmax1 : s1.max_events_per_stream = s.max_events_per_stream :=
        store_event_max hok
      obtain ⟨hbuf1, hframe1⟩ := store_event_buffer (reachable_inv hr) hc hok
      rw [hbuf] at hbuf1
      simp only [Option.getD_some] at hbuf1
      simp only [List.map_cons, List.nodup_cons] at hnodup
      have hfresh1 : ∀ c2 ∈ rest, lookupA s1.event_index c2.2 = none := by
        intro c2 hc2
        refine store_event_index_none hok c2.2 (hfresh _ (List.mem_cons_of_mem _ hc2)) ?_
        intro hh
        exact hnodup.1 (hh ▸ List.mem_map_of_mem Prod.snd hc2)
      obtain ⟨s', hmany, hr', hmax', hbuf', hframe'⟩ :=
        ih s1 _ hr1 (hmax1 ▸ hc) hbuf1 hfresh1 hnodup.2
      refine ⟨s', ?_, hr', hmax'.trans hmax1, ?_, ?_⟩
      · simp only [storeMany, hok]
        exact hmany
      · rw [hbuf', hmax1, lastN_merge]
        simp
      · intro sid0 hs
        rw [hframe' sid0 hs, hframe1 sid0 hs]

end StoreManyLemmas

section ConcreteStates

/-- Concrete entry used in witness states: id "x" on stream "S1". -/
def exEntryX : EventEntry Nat := ⟨"x", "S1", 0⟩

/-- Concrete entry used in witness states: id "y" on stream "S2". -/
def exEntryY : EventEntry Nat := ⟨"y", "S2", 5⟩

/-- Concrete entry used in witness states: id "a" on stream "S1". -/
def exEntryA : EventEntry Nat := ⟨"a", "S1", 0⟩

/-- Capacity-two store after appending "x" to stream "S1". -/
def exStoreX : InMemoryEventStore Nat := ⟨2, [("S1", [exEntryX])], [("x", exEntryX)]⟩

/-- Capacity-two store after appending "x" to "S1" and "y" to "S2". -/
def exStoreXY : InMemoryEventStore Nat :=
  ⟨2, [("S1", [exEntryX]), ("S2", [exEntryY])], [("x", exEntryX), ("y", exEntryY)]⟩

/-- Capacity-one store whose single stream "S1" is full. -/
def exStoreFull : InMemoryEventStore Nat := ⟨1, [("S1", [exEntryA])], [("a", exEntryA)]⟩

theorem exStoreX_reachable : Reachable exStoreX :=
  @Reachable.step Nat (InMemoryEventStore.init Nat 2) exStoreX "S1" 0 "x" "x"
    (Reachable.init 2) rfl (by rfl)

theorem exStoreXY_reachable : Reachable exStoreXY :=
  @Reachable.step Nat exStoreX exStoreXY "S2" 5 "y" "y" exStoreX_reachable rfl (by rfl)

theorem exStoreFull_reachable : Reachable exStoreFull :=
  @Reachable.step Nat (InMemoryEventStore.init Nat 1) exStoreFull "S1" 0 "a" "a"
    (Reachable.init 1) rfl (by rfl)

end ConcreteStates

section Claims

/-- C1: on every reachable log state, for every event id present in the
Global Index, `replay_events_after` resolves the anchor entry, delivers
exactly the entries strictly after the anchor in the anchor's stream buffer,
in original append order, never the anchor itself nor an entry of a different
stream, delivers nothing when the anchor is the tail, and returns the
anchor's stream id (success, not not-found, also in the zero-event case). -/
theorem C1_replay_after_anchor {Msg : Type} (s : InMemoryEventStore Msg)
    (hr : Reachable s) (last_event_id : String) (e : EventEntry Msg)
    (he : lookupA s.event_index last_event_id = some e) :
    ∃ buf pre post,
      lookupA s.streams e.stream_id = some buf ∧
      buf = pre ++ e :: post ∧
      (replay_events_after s last_event_id).1.result = some e.stream_id ∧
      (replay_events_after s last_event_id).1.delivered
        = post.map (fun ev => (ev.message, ev.event_id)) ∧
      (∀ ev ∈ post, ev.stream_id = e.stream_id ∧ ev.event_id ≠ last_event_id) ∧
      (post = [] → (replay_events_after s last_event_id).1.delivered = []) := by
  obtain ⟨buf, pre, post, hbuf, hsplit, hkey, hres, hpost⟩ :=
    replay_found_spec (reachable_inv hr) he
  refine ⟨buf, pre, post, hbuf, hsplit, by rw [hres], by rw [hres], hpost, ?_⟩
  intro h
  rw [hres, h]
  rfl

/-- C1 witness: the cross-stream isolation scenario — with "x" on stream "S1"
and "y" on stream "S2", replaying after "x" delivers nothing of "S2" and
resolves to "S1". -/
theorem C1_witness :
    Reachable exStoreXY ∧
    lookupA exStoreXY.event_index "x" = some exEntryX ∧
    (∃ buf pre post,
      lookupA exStoreXY.streams exEntryX.stream_id = some buf ∧
      buf = pre ++ exEntryX :: post ∧
      (replay_events_after exStoreXY "x").1.result = some exEntryX.stream_id ∧
      (replay_events_after exStoreXY "x").1.delivered
        = post.map (fun ev => (ev.message, ev.event_id)) ∧
      (∀ ev ∈ post, ev.stream_id = exEntryX.stream_id ∧ ev.event_id ≠ "x") ∧
      (post = [] → (replay_events_after exStoreXY "x").1.delivered = [])) :=
  ⟨exStoreXY_reachable, rfl,
    C1_replay_after_anchor exStoreXY exStoreXY_reachable "x" exEntryX rfl⟩

/-- C2: on every reachable state of a log with capacity at least one, every
stream buffer is bounded by the capacity, and the Global Index holds an entry
for an id exactly when some stream buffer holds an event with that id. -/
theorem C2_bounded_and_exact_index {Msg : Type} (s : InMemoryEventStore Msg)
    (hr : Reachable s) (_hc : 1 ≤ s.max_events_per_stream) :
    (∀ sid buf, lookupA s.streams sid = some buf →
      (buf.length : Int) ≤ s.max_events_per_stream) ∧
    (∀ eid, (∃ e, lookupA s.event_index eid = some e) ↔
      (∃ sid buf, lookupA s.streams sid = some buf ∧
        ∃ e ∈ buf, e.event_id = eid)) := by
  have hInv := reachable_inv hr
  refine ⟨hInv.buf_len, fun eid => ⟨?_, ?_⟩⟩
  · rintro ⟨e, he⟩
    obtain ⟨buf, hbuf, hmem⟩ := hInv.index_mem eid e he
    exact ⟨e.stream_id, buf, hbuf, e, hmem, hInv.index_key eid e he⟩
  · rintro ⟨sid, buf, hbuf, e, hmem, hid⟩
    exact ⟨e, hid ▸ hInv.mem_index sid buf hbuf e hmem⟩

/-- C2 witness at a concrete reachable two-stream state. -/
theorem C2_witness :
    Reachable exStoreXY ∧ (1 : Int) ≤ exStoreXY.max_events_per_stream ∧
    ((∀ sid buf, lookupA exStoreXY.streams sid = some buf →
      (buf.length : Int) ≤ exStoreXY.max_events_per_stream) ∧
    (∀ eid, (∃ e, lookupA exStoreXY.event_index eid = some e) ↔
      (∃ sid buf, lookupA exStoreXY.streams sid = some buf ∧
        ∃ e ∈ buf, e.event_id = eid))) :=
  ⟨exStoreXY_reachable, by decide,
    C2_bounded_and_exact_index exStoreXY exStoreXY_reachable (by decide)⟩

/-- C3: a `store_event` call on a reachable state whose target buffer holds
exactly `max_events_per_stream` events succeeds, removes exactly the single
oldest event from both the buffer and the Global Index in the same step the
new event is appended to the tail, keeps the buffer at capacity, and leaves
the surviving events in their original relative order with no gap. -/
theorem C3_eviction_atomic {Msg : Type} (s : InMemoryEventStore Msg)
    (hr : Reachable s) (sid : String) (buf : List (EventEntry Msg)) (msg : Msg)
    (eid : String)
    (hbuf : lookupA s.streams sid = some buf)
    (hfull : (buf.length : Int) = s.max_events_per_stream)
    (hfresh : lookupA s.event_index eid = none) :
    ∃ oldest rest s',
      buf = oldest :: rest ∧
      store_event s sid msg eid = .ok (eid, s') ∧
      lookupA s'.streams sid = some (rest ++ [(⟨eid, sid, msg⟩ : EventEntry Msg)]) ∧
      ((rest ++ [(⟨eid, sid, msg⟩ : EventEntry Msg)]).length : Int)
        = s.max_events_per_stream ∧
      lookupA s'.event_index oldest.event_id = none ∧
      lookupA s'.event_index eid = some ⟨eid, sid, msg⟩ ∧
      oldest.event_id ∉
        (rest ++ [(⟨eid, sid, msg⟩ : EventEntry Msg)]).map EventEntry.event_id := by
  have hInv := reachable_inv hr
  obtain ⟨oldest, rest, rfl⟩ : ∃ oldest rest, buf = oldest :: rest := by
    cases buf with
    | nil => exact absurd rfl (hInv.buf_ne sid [] hbuf)
    | cons a l => exact ⟨a, l, rfl⟩
  have hok := store_event_eq_full s sid msg eid oldest rest hbuf hfull
  have holdest_idx : lookupA s.event_index oldest.event_id = some oldest :=
    hInv.mem_index sid _ hbuf oldest (List.mem_cons_self _ _)
  have hone : oldest.event_id ≠ eid := by
    intro hh
    rw [hh, hfresh] at holdest_idx
    exact Option.noConfusion holdest_idx
  have hids := hInv.buf_ids_nodup sid _ hbuf
  simp only [List.map_cons, List.nodup_cons] at hids
  refine ⟨oldest, rest, _, rfl, hok, ?_, ?_, ?_, ?_, ?_⟩
  · exact lookupA_insertA_self _ _ _
  · simp only [List.length_append, List.length_cons, List.length_nil] at hfull ⊢
    push_cast at hfull ⊢
    omega
  · rw [lookupA_insertA_ne _ _ _ _ hone]
    exact lookupA_eraseA_self _ _ hInv.index_keys_nodup
  · exact lookupA_insertA_self _ _ _
  · simp only [List.map_append, List.map_cons, List.map_nil, List.mem_append,
      List.mem_cons, List.not_mem_nil, or_false, not_or]
    exact ⟨hids.1, hone⟩

/-- C3 witness: storing "b" on a full capacity-one stream evicts "a" from
buffer and index together. -/
theorem C3_witness :
    Reachable exStoreFull ∧
    lookupA exStoreFull.streams "S1" = some [exEntryA] ∧
    (([exEntryA].length : Int) = exStoreFull.max_events_per_stream) ∧
    lookupA exStoreFull.event_index "b" = none ∧
    (∃ oldest rest s',
      [exEntryA] = oldest :: rest ∧
      store_event exStoreFull "S1" 7 "b" = .ok ("b", s') ∧
      lookupA s'.streams "S1" = some (rest ++ [(⟨"b", "S1", 7⟩ : EventEntry Nat)]) ∧
      ((rest ++ [(⟨"b", "S1", 7⟩ : EventEntry Nat)]).length : Int)
        = exStoreFull.max_events_per_stream ∧
      lookupA s'.event_index oldest.event_id = none ∧
      lookupA s'.event_index "b" = some ⟨"b", "S1", 7⟩ ∧
      oldest.event_id ∉
        (rest ++ [(⟨"b", "S1", 7⟩ : EventEntry Nat)]).map EventEntry.event_id) :=
  ⟨exStoreFull_reachable, rfl, by decide, rfl,
    C3_eviction_atomic exStoreFull exStoreFull_reachable "S1" [exEntryA] 7 "b"
      rfl (by decide) rfl⟩

/-- C4: `replay_events_after` returns not-found (`none`) exactly when the
anchor id is absent from the Global Index, and in that case the delivery
callback is never invoked. -/
theorem C4_not_found_iff {Msg : Type} (s : InMemoryEventStore Msg)
    (last_event_id : String) :
    ((replay_events_after s last_event_id).1.result = none ↔
      lookupA s.event_index last_event_id = none) ∧
    (lookupA s.event_index last_event_id = none →
      (replay_events_after s last_event_id).1.delivered = []) := by
  constructor
  · constructor
    · intro h
      cases hlk : lookupA s.event_index last_event_id with
      | none => rfl
      | some e => simp [replay_events_after, hlk] at h
    · intro h
      rw [replay_not_found s last_event_id h]
  · intro h
    rw [replay_not_found s last_event_id h]

/-- C4 witness: an id never issued on a concrete state. -/
theorem C4_witness :
    ((replay_events_after exStoreX "zzz").1.result = none ↔
      lookupA exStoreX.event_index "zzz" = none) ∧
    (lookupA exStoreX.event_index "zzz" = none →
      (replay_events_after exStoreX "zzz").1.delivered = []) :=
  C4_not_found_iff exStoreX "zzz"

/-- C5: appending capacity-plus-one fresh events to a fresh stream evicts the
first event, so replaying after it reports not-found (`none`) with zero
deliveries. -/
theorem C5_eviction_invalidates_resumption {Msg : Type}
    (s : InMemoryEventStore Msg)
    (hr : Reachable s) (hc : 1 ≤ s.max_events_per_stream) (sid : String)
    (hsid : lookupA s.streams sid = none) (calls : List (Msg × String))
    (hlen : (calls.length : Int) = s.max_events_per_stream + 1)
    (hfresh : ∀ c ∈ calls, lookupA s.event_index c.2 = none)
    (hnodup : (calls.map Prod.snd).Nodup) :
    ∃ c0 rest s', calls = c0 :: rest ∧
      storeMany s sid calls = .ok s' ∧
      (replay_events_after s' c0.2).1 = { result := none, delivered := [] } := by
  cases calls with
  | nil => simp at hlen; omega
  | cons c0 rest => ?_
  obtain ⟨msg0, eid0⟩ := c0
  have hfresh0 : lookupA s.event_index eid0 = none := hfresh _ (List.mem_cons_self _ _)
  have hok := store_event_eq_new s sid msg0 eid0 hsid hc
  set s1 : InMemoryEventStore Msg :=
    { s with
      streams := insertA s.streams sid [⟨eid0, sid, msg0⟩],
      event_index := insertA s.event_index eid0 ⟨eid0, sid, msg0⟩ } with hs1
  have hr1 : Reachable s1 := Reachable.step hr hfresh0 hok
  have hbuf1 : lookupA s1.streams sid = some [⟨eid0, sid, msg0⟩] :=
    lookupA_insertA_self _ _ _
  simp only [List.map_cons, List.nodup_cons] at hnodup
  have hfresh1 : ∀ c2 ∈ rest, lookupA s1.event_index c2.2 = none := by
    intro c2 hc2
    have hne : c2.2 ≠ eid0 := by
      intro hh
      exact hnodup.1 (hh ▸ List.mem_map_of_mem Prod.snd hc2)
    rw [hs1]
    simp only []
    rw [lookupA_insertA_ne _ _ _ _ hne]
    exact hfresh _ (List.mem_cons_of_mem _ hc2)
  obtain ⟨s', hmany, hr', hmax', hbuf', hframe'⟩ :=
    storeMany_from_buf sid rest s1 _ hr1 hc hbuf1 hfresh1 hnodup.2
  have hbufEq : lookupA s'.streams sid =
      some (rest.map (fun c => (⟨c.2, sid, c.1⟩ : EventEntry Msg))) := by
    rw [hbuf']
    have hlenN : rest.length = s.max_events_per_stream.toNat := by
      simp only [List.length_cons] at hlen
      omega
    have : lastN s.max_events_per_stream.toNat
        ([(⟨eid0, sid, msg0⟩ : EventEntry Msg)] ++
          rest.map (fun c => (⟨c.2, sid, c.1⟩ : EventEntry Msg)))
        = rest.map (fun c => (⟨c.2, sid, c.1⟩ : EventEntry Msg)) := by
      unfold lastN
      have harith : (([(⟨eid0, sid, msg0⟩ : EventEntry Msg)] ++
          rest.map (fun c => (⟨c.2, sid, c.1⟩ : EventEntry Msg))).length) -
          s.max_events_per_stream.toNat = 1 := by
        simp only [List.length_append, List.length_cons, List.length_nil,
          List.length_map]
        omega
      rw [harith]
      simp
    rw [this]
  have hnone : lookupA s'.event_index eid0 = none := by
    cases hq : lookupA s'.event_index eid0 with
    | none => rfl
    | some e =>
        exfalso
        have hInv' := reachable_inv hr'
        have hkey : e.event_id = eid0 := hInv'.index_key eid0 e hq
        obtain ⟨buf0, hb0, hm0⟩ := hInv'.index_mem eid0 e hq
        by_cases hside : e.stream_id = sid
        · rw [hside, hbufEq] at hb0
          obtain rfl : buf0 = rest.map (fun c => (⟨c.2, sid, c.1⟩ : EventEntry Msg)) :=
            (Option.some.injEq _ _ ▸ hb0).symm
          have hm2 : e.event_id ∈
              (rest.map (fun c => (⟨c.2, sid, c.1⟩ : EventEntry Msg))).map
                EventEntry.event_id :=
            List.mem_map_of_mem _ hm0
          rw [hkey] at hm2
          simp only [List.map_map] at hm2
          have hm3 : eid0 ∈ rest.map Prod.snd := by
            simpa [Function.comp] using hm2
          exact hnodup.1 hm3
        · rw [hframe' _ hside] at hb0
          have hb0s : lookupA s.streams e.stream_id = some buf0 := by
            rw [hs1] at hb0
            simp only [] at hb0
            rwa [lookupA_insertA_ne _ _ _ _ hside] at hb0
          have := (reachable_inv hr).mem_index _ buf0 hb0s e hm0
          rw [hkey, hfresh0] at this
          exact Option.noConfusion this
  refine ⟨(msg0, eid0), rest, s', rfl, ?_, ?_⟩
  · simp only [storeMany, hok]
    exact hmany
  · exact replay_not_found s' eid0 hnone

/-- C5 witness: capacity one, two appends, the first id is evicted and
replaying after it reports not-found with zero deliveries. -/
theorem C5_witness :
    Reachable (InMemoryEventStore.init Nat 1) ∧
    (1 : Int) ≤ (InMemoryEventStore.init Nat 1).max_events_per_stream ∧
    lookupA (InMemoryEventStore.init Nat 1).streams "S" = none ∧
    ((([((0:Nat), "e1"), (1, "e2")].length : Int)) =
      (InMemoryEventStore.init Nat 1).max_events_per_stream + 1) ∧
    (∀ c ∈ [((0:Nat), "e1"), (1, "e2")],
      lookupA (InMemoryEventStore.init Nat 1).event_index c.2 = none) ∧
    (([((0:Nat), "e1"), (1, "e2")].map Prod.snd).Nodup) ∧
    (∃ c0 rest s', [((0:Nat), "e1"), (1, "e2")] = c0 :: rest ∧
      storeMany (InMemoryEventStore.init Nat 1) "S" [((0:Nat), "e1"), (1, "e2")]
        = .ok s' ∧
      (replay_events_after s' c0.2).1 = { result := none, delivered := [] }) :=
  ⟨Reachable.init 1, by decide, rfl, by decide, by decide, by decide,
    C5_eviction_invalidates_resumption (InMemoryEventStore.init Nat 1)
      (Reachable.init 1) (by decide) "S" rfl [((0:Nat), "e1"), (1, "e2")]
      (by decide) (by decide) (by decide)⟩

/-- C6 counterexample: constructing the log with `max_events_per_stream = 0`
is not rejected — `InMemoryEventStore.__init__` performs no validation, so a
log instance with non-positive capacity exists at runtime; the invalid
configuration only surfaces later, as an `IndexError` on the first
`store_event`. -/
theorem C6_counterexample :
    InMemoryEventStore.init Nat 0 =
      { max_events_per_stream := 0, streams := [], event_index := [] } ∧
    (InMemoryEventStore.init Nat 0).max_events_per_stream ≤ 0 ∧
    store_event (InMemoryEventStore.init Nat 0) "S" 0 "e1"
      = .error "IndexError: deque index out of range" :=
  ⟨rfl, by decide, store_event_error_zero _ "S" 0 "e1" rfl rfl⟩

/-- C6 (amended): the constructor accepts any capacity, including
non-positive ones, without validation; with `max_events_per_stream ≤ 0` the
resulting instance exists at runtime and every `store_event` call on it fails
(`ValueError` for a negative capacity, `IndexError` for capacity zero). -/
theorem C6_init_accepts_any_capacity (Msg : Type) (c : Int) (hc : c ≤ 0) :
    (InMemoryEventStore.init Msg c).max_events_per_stream = c ∧
    (InMemoryEventStore.init Msg c).streams = [] ∧
    (InMemoryEventStore.init Msg c).event_index = [] ∧
    (∀ sid msg eid, ∃ err,
      store_event (InMemoryEventStore.init Msg c) sid msg eid = .error err) := by
  refine ⟨rfl, rfl, rfl, fun sid msg eid => ?_⟩
  by_cases h : c < 0
  · exact ⟨_, store_event_error_neg _ sid msg eid rfl h⟩
  · have hz : (InMemoryEventStore.init Msg c).max_events_per_stream = 0 := by
      simp only [InMemoryEventStore.init]
      omega
    exact ⟨_, store_event_error_zero _ sid msg eid rfl hz⟩

/-- C6 witness: capacity zero is accepted by the constructor. -/
theorem C6_witness :
    (0 : Int) ≤ 0 ∧
    ((InMemoryEventStore.init Nat 0).max_events_per_stream = 0 ∧
    (InMemoryEventStore.init Nat 0).streams = [] ∧
    (InMemoryEventStore.init Nat 0).event_index = [] ∧
    (∀ sid msg eid, ∃ err,
      store_event (InMemoryEventStore.init Nat 0) sid msg eid = .error err)) :=
  ⟨by decide, C6_init_accepts_any_capacity Nat 0 (by decide)⟩

/-- C7: on any log state with capacity at least one, `store_event` always
succeeds and returns the generated event id — an unknown stream id creates a
new buffer rather than erroring, and a full buffer is handled by silent
eviction, not a failure. -/
theorem C7_store_event_total {Msg : Type} (s : InMemoryEventStore Msg)
    (hc : 1 ≤ s.max_events_per_stream) (sid : String) (msg : Msg) (eid : String) :
    ∃ s', store_event s sid msg eid = .ok (eid, s') ∧
      (lookupA s.streams sid = none → ∃ buf, lookupA s'.streams sid = some buf) := by
  cases hlk : lookupA s.streams sid with
  | none =>
      refine ⟨_, store_event_eq_new s sid msg eid hlk hc, fun _ => ?_⟩
      exact ⟨[⟨eid, sid, msg⟩], lookupA_insertA_self _ _ _⟩
  | some buf =>
      obtain ⟨s', hok⟩ := store_event_succeeds s hc sid msg eid
      exact ⟨s', hok, fun h => absurd h (by simp)⟩

/-- C7 witness: storing on an unknown stream of a concrete capacity-two
state succeeds and creates the buffer. -/
theorem C7_witness :
    (1 : Int) ≤ exStoreX.max_events_per_stream ∧
    (∃ s', store_event exStoreX "S9" 3 "w" = .ok ("w", s') ∧
      (lookupA exStoreX.streams "S9" = none →
        ∃ buf, lookupA s'.streams "S9" = some buf)) :=
  ⟨by decide, C7_store_event_total exStoreX (by decide) "S9" 3 "w"⟩

/-- C8: both operations are deterministic given their inputs and the current
state (the generated uuid is modelled as an explicit input supplied by the
external unique-id generator): equal states and equal arguments yield equal
results and equal successor states. -/
theorem C8_deterministic {Msg : Type} (s1 s2 : InMemoryEventStore Msg)
    (sid1 sid2 : String) (msg1 msg2 : Msg) (eid1 eid2 lid1 lid2 : String)
    (hs : s1 = s2) (hsid : sid1 = sid2) (hmsg : msg1 = msg2)
    (heid : eid1 = eid2) (hlid : lid1 = lid2) :
    store_event s1 sid1 msg1 eid1 = store_event s2 sid2 msg2 eid2 ∧
    replay_events_after s1 lid1 = replay_events_after s2 lid2 := by
  subst hs; subst hsid; subst hmsg; subst heid; subst hlid
  exact ⟨rfl, rfl⟩

/-- C8 witness at concrete equal inputs. -/
theorem C8_witness :
    exStoreX = exStoreX ∧ "S1" = "S1" ∧ (0 : Nat) = 0 ∧ "n" = "n" ∧ "x" = "x" ∧
    (store_event exStoreX "S1" 0 "n" = store_event exStoreX "S1" 0 "n" ∧
      replay_events_after exStoreX "x" = replay_events_after exStoreX "x") :=
  ⟨rfl, rfl, rfl, rfl, rfl,
    C8_deterministic exStoreX exStoreX "S1" "S1" 0 0 "n" "n" "x" "x"
      rfl rfl rfl rfl rfl⟩

/-- C9: `replay_events_after` never mutates the log: in both the success and
the not-found branch, the streams mapping and the Global Index (indeed the
whole state) are returned unchanged. -/
theorem C9_replay_no_mutation {Msg : Type} (s : InMemoryEventStore Msg)
    (last_event_id : String) :
    (replay_events_after s last_event_id).2.streams = s.streams ∧
    (replay_events_after s last_event_id).2.event_index = s.event_index ∧
    (replay_events_after s last_event_id).2 = s := by
  unfold replay_events_after
  cases lookupA s.event_index last_event_id <;> exact ⟨rfl, rfl, rfl⟩

/-- C10: a `store_event` call touches only its own stream: every other
stream's buffer lookup is unchanged, and the Global Index entries whose
events belong to a different stream are exactly preserved (none modified,
none added, none removed). -/
theorem C10_store_event_frame {Msg : Type} (s s' : InMemoryEventStore Msg)
    (sid : String) (msg : Msg) (eid ret : String)
    (hr : Reachable s)
    (hfresh : lookupA s.event_index eid = none)
    (hok : store_event s sid msg eid = .ok (ret, s')) :
    (∀ sid0, sid0 ≠ sid → lookupA s'.streams sid0 = lookupA s.streams sid0) ∧
    (∀ id0 e, lookupA s.event_index id0 = some e → e.stream_id ≠ sid →
      lookupA s'.event_index id0 = some e) ∧
    (∀ id0 e, lookupA s'.event_index id0 = some e → e.stream_id ≠ sid →
      lookupA s.event_index id0 = some e) := by
  have hInv := reachable_inv hr
  obtain ⟨rfl, hcase⟩ := store_event_ok_inv hok
  have hne_of_fresh : ∀ id0 (e : EventEntry Msg),
      lookupA s.event_index id0 = some e → id0 ≠ ret := by
    intro id0 e hid hh
    rw [hh, hfresh] at hid
    exact Option.noConfusion hid
  rcases hcase with ⟨habs, hc, rfl⟩ | ⟨buf, hbuf, hnf, rfl⟩ |
    ⟨oldest, rest, hbuf, hfull, rfl⟩
  · refine ⟨fun sid0 hs => lookupA_insertA_ne _ _ _ _ hs, ?_, ?_⟩
    · intro id0 e hid hside
      rw [lookupA_insertA_ne _ _ _ _ (hne_of_fresh id0 e hid)]
      exact hid
    · intro id0 e hid hside
      by_cases hi : id0 = ret
      · subst hi
        rw [lookupA_insertA_self] at hid
        obtain rfl : e = ⟨id0, sid, msg⟩ := (Option.some.injEq _ _ ▸ hid).symm
        exact absurd rfl hside
      · rwa [lookupA_insertA_ne _ _ _ _ hi] at hid
  · refine ⟨fun sid0 hs => lookupA_insertA_ne _ _ _ _ hs, ?_, ?_⟩
    · intro id0 e hid hside
      rw [lookupA_insertA_ne _ _ _ _ (hne_of_fresh id0 e hid)]
      exact hid
    · intro id0 e hid hside
      by_cases hi : id0 = ret
      · subst hi
        rw [lookupA_insertA_self] at hid
        obtain rfl : e = ⟨id0, sid, msg⟩ := (Option.some.injEq _ _ ▸ hid).symm
        exact absurd rfl hside
      · rwa [lookupA_insertA_ne _ _ _ _ hi] at hid
  · have holdest_idx : lookupA s.event_index oldest.event_id = some oldest :=
      hInv.mem_index sid _ hbuf oldest (List.mem_cons_self _ _)
    have holdest_sid : oldest.stream_id = sid :=
      hInv.buf_stream sid _ hbuf oldest (List.mem_cons_self _ _)
    refine ⟨fun sid0 hs => lookupA_insertA_ne _ _ _ _ hs, ?_, ?_⟩
    · intro id0 e hid hside
      have hno : id0 ≠ oldest.event_id := by
        intro hh
        rw [hh, holdest_idx] at hid
        obtain rfl : e = oldest := (Option.some.injEq _ _ ▸ hid).symm
        exact hside holdest_sid
      rw [lookupA_insertA_ne _ _ _ _ (hne_of_fresh id0 e hid),
        lookupA_eraseA_ne _ _ _ hno]
      exact hid
    · intro id0 e hid hside
      by_cases hi : id0 = ret
      · subst hi
        rw [lookupA_insertA_self] at hid
        obtain rfl : e = ⟨id0, sid, msg⟩ := (Option.some.injEq _ _ ▸ hid).symm
        exact absurd rfl hside
      · rw [lookupA_insertA_ne _ _ _ _ hi] at hid
        by_cases ho : id0 = oldest.event_id
        · subst ho
          rw [lookupA_eraseA_self _ _ hInv.index_keys_nodup] at hid
          exact Option.noConfusion hid
        · rwa [lookupA_eraseA_ne _ _ _ ho] at hid

/-- C10 witness: storing on stream "S2" of a concrete state leaves stream
"S1" and its index entries untouched. -/
theorem C10_witness :
    Reachable exStoreX ∧
    lookupA exStoreX.event_index "y" = none ∧
    store_event exStoreX "S2" 5 "y" = .ok ("y", exStoreXY) ∧
    ((∀ sid0, sid0 ≠ "S2" →
      lookupA exStoreXY.streams sid0 = lookupA exStoreX.streams sid0) ∧
    (∀ id0 e, lookupA exStoreX.event_index id0 = some e → e.stream_id ≠ "S2" →
      lookupA exStoreXY.event_index id0 = some e) ∧
    (∀ id0 e, lookupA exStoreXY.event_index id0 = some e → e.stream_id ≠ "S2" →
      lookupA exStoreX.event_index id0 = some e)) :=
  ⟨exStoreX_reachable, rfl, by rfl,
    C10_store_event_frame exStoreX exStoreXY "S2" 5 "y" "y"
      exStoreX_reachable rfl (by rfl)⟩

end Claims

end EventStoreModel
